import Mathlib

/-!
Verification of the streaming spectral-analysis pipeline of
`realtime_spectrogram` (Rust). The definitions below are a shallow
embedding of the source files `src/fft_worker.rs`, `src/main.rs`,
`src/ui.rs`, `src/ui/gui.rs` and `src/util.rs`:

* the frame-aggregation loop of `start_fft_thread` (`buffer.extend(chunk)`
  followed by `while buffer.len() >= FFT_SIZE { buffer.drain(..FFT_SIZE) }`)
  becomes `drainWindows` / `ingest` / `processChunks`;
* the spectral transform (`fft.process` then `c.norm()/FFT_SIZE`,
  `log10`, `max(-2.0)`, `+2.0`) becomes `dftOut` / `spectralFrame`,
  over idealized real arithmetic;
* the rolling store mutation (`spec.pop(); spec.insert(0, mags)`) becomes
  `push`, and the renderer's `spectrogram.lock().unwrap().clone()` becomes
  `snapshot`;
* the mutex-guarded accesses are modelled by an interleaving of atomic
  operations (`StoreOp`, `runTrace`), and the `.unwrap()` on a possibly
  poisoned lock by `Except`-style propagation (`workerLoop`);
* the renderer frequency-axis mapping of `ui.rs` and `ui/gui.rs` becomes
  `uiRowFreq` / `uiFftIndex` / `guiRowFreq` / `guiFftIndex`.

Machine floats (`f32`) are modelled by `ℝ`; the single place where IEEE
semantics differs from `ℝ` in an observable way, `(0.0f32).log10() = -inf`
followed by `.max(-2.0) = -2.0`, is modelled explicitly by the zero case of `clampedLog10`.
-/

namespace RealtimeSpectrogram

/-- `FFT_SIZE` from `constants`/`main.rs`: number of samples per analysis
window. -/
def FFT_SIZE : ℕ := 512

/-- `SPEC_WIDTH` from `constants`/`main.rs`: number of retained spectral
frames (time-direction width of the spectrogram). -/
def SPEC_WIDTH : ℕ := 200

/-! ## Frame Aggregator (`fft_worker.rs`, inner `while` loop)

`while buffer.len() >= FFT_SIZE { let frame = buffer.drain(..FFT_SIZE); … }`
repeatedly removes the first `FFT_SIZE` samples as one analysis window.
Samples are treated as opaque data (the loop never inspects them), so the
embedding is polymorphic in the sample type. -/

/-- The `while buffer.len() >= FFT_SIZE` loop body of `start_fft_thread`:
returns the emitted analysis windows, in emission order, together with the
remaining pending buffer. -/
def drainWindows {α : Type} (buffer : List α) : List (List α) × List α :=
  if _h : FFT_SIZE ≤ buffer.length then
    let frame := buffer.take FFT_SIZE
    let rest := drainWindows (buffer.drop FFT_SIZE)
    (frame :: rest.1, rest.2)
  else
    ([], buffer)
termination_by buffer.length
decreasing_by simp only [List.length_drop, FFT_SIZE] at *; omega

/-- One iteration of the `for chunk in rx` loop: `buffer.extend(chunk)`
followed by the draining loop. -/
def ingest {α : Type} (buffer chunk : List α) : List (List α) × List α :=
  drainWindows (buffer ++ chunk)

/-- The whole `for chunk in rx` loop of the worker, starting from pending
buffer `buffer`, over the finite list of chunks received before the channel
closed: returns all emitted windows (in emission order) and the final
pending buffer. -/
def processChunks {α : Type} : List (List α) → List α → List (List α) × List α
  | [], buffer => ([], buffer)
  | chunk :: rest, buffer =>
    let step := ingest buffer chunk
    let tail := processChunks rest step.2
    (step.1 ++ tail.1, tail.2)

/-- The worker thread's aggregation loop as spawned by `start_fft_thread`:
starts from the empty pending buffer (`let mut buffer = Vec::new()`). -/
def workerRun {α : Type} (chunks : List (List α)) : List (List α) × List α :=
  processChunks chunks []

lemma drainWindows_flatten_append {α : Type} (buffer : List α) :
    ((drainWindows buffer).1.flatten ++ (drainWindows buffer).2 = buffer)
    ∧ (∀ w ∈ (drainWindows buffer).1, w.length = FFT_SIZE)
    ∧ (drainWindows buffer).2.length < FFT_SIZE := by
  induction buffer using drainWindows.induct with
  | case1 buffer h ih =>
    rw [drainWindows, dif_pos h]
    dsimp only
    obtain ⟨ih1, ih2, ih3⟩ := ih
    refine ⟨?_, ?_, ih3⟩
    · simp only [List.flatten_cons, List.append_assoc, ih1,
        List.take_append_drop]
    · intro w hw
      rw [List.mem_cons] at hw
      rcases hw with rfl | hw
      · simpa [List.length_take] using Nat.min_eq_left h
      · exact ih2 w hw
  | case2 buffer h =>
    rw [drainWindows, dif_neg h]
    exact ⟨by simp, by simp, by simpa using Nat.lt_of_not_le h⟩

lemma processChunks_spec {α : Type} (chunks : List (List α)) :
    ∀ buffer : List α,
    ((processChunks chunks buffer).1.flatten ++ (processChunks chunks buffer).2
      = buffer ++ chunks.flatten)
    ∧ (∀ w ∈ (processChunks chunks buffer).1, w.length = FFT_SIZE)
    ∧ ((processChunks chunks buffer).2.length < FFT_SIZE
       ∨ (chunks = [] ∧ (processChunks chunks buffer).2 = buffer)) := by
  induction chunks with
  | nil => intro buffer; exact ⟨by simp [processChunks], by simp [processChunks],
      Or.inr ⟨rfl, rfl⟩⟩
  | cons chunk rest ih =>
    intro buffer
    obtain ⟨d1, d2, d3⟩ := drainWindows_flatten_append (buffer ++ chunk)
    obtain ⟨i1, i2, i3⟩ := ih (drainWindows (buffer ++ chunk)).2
    refine ⟨?_, ?_, ?_⟩
    · simp only [processChunks, ingest, List.flatten_append, List.append_assoc,
        List.flatten_cons]
      rw [i1, ← List.append_assoc, d1, List.append_assoc]
    · intro w hw
      simp only [processChunks, ingest, List.mem_append] at hw
      rcases hw with hw | hw
      · exact d2 w hw
      · exact i2 w hw
    · rcases i3 with h | ⟨hnil, heq⟩
      · exact Or.inl h
      · left
        simpa only [processChunks, ingest, hnil, heq] using d3

lemma flatten_length_of_forall_length {α : Type} {ws : List (List α)} {k : ℕ}
    (h : ∀ w ∈ ws, w.length = k) : ws.flatten.length = k * ws.length := by
  induction ws with
  | nil => simp
  | cons w rest ih =>
    simp only [List.flatten_cons, List.length_append, List.length_cons,
      h w (List.mem_cons_self w rest),
      ih fun v hv => h v (List.mem_cons_of_mem w hv)]
    ring

lemma processChunks_nil_buffer {α : Type} (chunks : List (List α)) :
    ((processChunks chunks ([] : List α)).1.flatten
        ++ (processChunks chunks []).2 = chunks.flatten)
    ∧ (∀ w ∈ (processChunks chunks ([] : List α)).1, w.length = FFT_SIZE)
    ∧ (processChunks chunks ([] : List α)).2.length < FFT_SIZE := by
  obtain ⟨h1, h2, h3⟩ := processChunks_spec chunks ([] : List α)
  refine ⟨by simpa using h1, h2, ?_⟩
  rcases h3 with h | ⟨-, h⟩
  · exact h
  · rw [h]; simp [FFT_SIZE]

/-- **C1.** For every finite sequence of input chunks processed by the
worker's aggregation loop (starting from the empty pending buffer), and
after each chunk (i.e. for every prefix `chunks.take n` of the input):
the emitted analysis windows concatenate, together with the pending
buffer, to exactly the concatenated input — so their concatenation is a
prefix of the input —, every emitted window has length exactly
`FFT_SIZE = 512`, and the pending buffer is exactly the remaining suffix,
of length `< FFT_SIZE`. -/
theorem C1_aggregation_contiguity (chunks : List (List ℝ)) (n : ℕ) :
    ((processChunks (chunks.take n) ([] : List ℝ)).1.flatten
        ++ (processChunks (chunks.take n) []).2 = (chunks.take n).flatten)
    ∧ ((processChunks (chunks.take n) ([] : List ℝ)).1.flatten
        = (chunks.take n).flatten.take
            (processChunks (chunks.take n) ([] : List ℝ)).1.flatten.length)
    ∧ (∀ w ∈ (processChunks (chunks.take n) ([] : List ℝ)).1,
        w.length = FFT_SIZE)
    ∧ (processChunks (chunks.take n) ([] : List ℝ)).2.length < FFT_SIZE := by
  obtain ⟨h1, h2, h3⟩ := processChunks_nil_buffer (chunks.take n)
  exact ⟨h1, by rw [← h1, List.take_left], h2, h3⟩

/-- **C8.** The worker loop, run over the finite list of chunks received
before the channel closed, is a total function (it terminates), and its
result is fully determined by the arrival-order concatenation of those
chunks: it emits exactly `⌊total/FFT_SIZE⌋` windows whose concatenation is
the corresponding prefix of the input, and the in-flight pending buffer
(the strict suffix of length `< FFT_SIZE`) is returned undrained — it is
never emitted as a window, i.e. no drain-to-completion is performed. -/
theorem C8_clean_shutdown (chunks : List (List ℝ)) :
    ((workerRun chunks).1.length = chunks.flatten.length / FFT_SIZE)
    ∧ ((workerRun chunks).1.flatten
        = chunks.flatten.take (FFT_SIZE * (workerRun chunks).1.length))
    ∧ ((workerRun chunks).2
        = chunks.flatten.drop (FFT_SIZE * (workerRun chunks).1.length))
    ∧ (∀ w ∈ (workerRun chunks).1, w.length = FFT_SIZE)
    ∧ (workerRun chunks).2.length < FFT_SIZE := by
  unfold workerRun
  obtain ⟨h1, h2, h3⟩ := processChunks_nil_buffer chunks
  have hlen : (processChunks chunks ([] : List ℝ)).1.flatten.length
      = FFT_SIZE * (processChunks chunks ([] : List ℝ)).1.length :=
    flatten_length_of_forall_length h2
  have htake : (processChunks chunks ([] : List ℝ)).1.flatten
      = chunks.flatten.take
          (FFT_SIZE * (processChunks chunks ([] : List ℝ)).1.length) := by
    rw [← hlen, ← h1, List.take_left]
  have hdrop : (processChunks chunks ([] : List ℝ)).2
      = chunks.flatten.drop
          (FFT_SIZE * (processChunks chunks ([] : List ℝ)).1.length) := by
    rw [← hlen, ← h1, List.drop_left]
  have htotal : chunks.flatten.length
      = FFT_SIZE * (processChunks chunks ([] : List ℝ)).1.length
        + (processChunks chunks ([] : List ℝ)).2.length := by
    rw [← h1, List.length_append, hlen]
  refine ⟨?_, htake, hdrop, h2, h3⟩
  have h512 : FFT_SIZE = 512 := rfl
  rw [h512] at htotal h3 ⊢
  omega

/-! ## Rolling Spectrogram Store (`fft_worker.rs` lines 28–30, `ui.rs` line 38)

The writer does `spec.pop(); spec.insert(0, mags);` under the mutex; the
renderer does `spectrogram.lock().unwrap().clone()`. -/

/-- `spec.pop(); spec.insert(0, frame)` — one store update of the worker:
drop the last (oldest) element, insert the new frame at index 0. -/
def push {F : Type} (spec : List F) (frame : F) : List F :=
  frame :: spec.dropLast

/-- `spectrogram.lock().unwrap().clone()` — the renderer's point-in-time
copy of the store. -/
def snapshot {F : Type} (spec : List F) : List F :=
  spec

/-- A sequence of store updates, oldest first (`frames.foldl push`). -/
def pushAll {F : Type} (spec : List F) (frames : List F) : List F :=
  frames.foldl push spec

lemma length_push {F : Type} {s : List F} {f : F} (h : s.length = SPEC_WIDTH) :
    (push s f).length = SPEC_WIDTH := by
  have : s.length ≠ 0 := by rw [h]; simp [SPEC_WIDTH]
  simp only [push, List.length_cons, List.length_dropLast]
  omega

lemma length_pushAll {F : Type} {s : List F} (fs : List F)
    (h : s.length = SPEC_WIDTH) : (pushAll s fs).length = SPEC_WIDTH := by
  induction fs generalizing s with
  | nil => simpa [pushAll]
  | cons f rest ih => simpa [pushAll, List.foldl_cons] using ih (length_push h)

lemma getElem?_push_succ {F : Type} {s : List F} {f : F} {i : ℕ}
    (h : i < s.length - 1) : (push s f)[i + 1]? = s[i]? := by
  simp only [push, List.getElem?_cons_succ]
  rw [List.getElem?_eq_getElem (by simp [List.length_dropLast]; omega),
      List.getElem?_eq_getElem (by omega)]
  simp [List.getElem_dropLast]

lemma head?_pushAll {F : Type} {s : List F} {fs : List F} (h : fs ≠ []) :
    (pushAll s fs)[0]? = fs.getLast? := by
  induction fs using List.reverseRecOn with
  | nil => exact absurd rfl h
  | append_singleton rest f _ =>
    simp [pushAll, List.foldl_append, push, List.getLast?_append]

/-- **C3.** A `push` on a store of exactly `SPEC_WIDTH` frames yields a
store of exactly `SPEC_WIDTH` frames whose index 0 is the pushed frame and
whose index `i+1` is the previous index `i` (the previous last frame being
discarded: the result is the new frame consed onto `dropLast` of the old
store); consequently after `k ≥ SPEC_WIDTH` pushes a snapshot returns
exactly `SPEC_WIDTH` frames with the most recently pushed frame at
position 0. -/
theorem C3_rolling_store_rotation {F : Type} (s : List F) (f : F)
    (hs : s.length = SPEC_WIDTH) :
    (push s f).length = SPEC_WIDTH
    ∧ (push s f)[0]? = some f
    ∧ (∀ i : ℕ, i < SPEC_WIDTH - 1 → (push s f)[i + 1]? = s[i]?)
    ∧ push s f = f :: s.dropLast
    ∧ (∀ fs : List F, SPEC_WIDTH ≤ fs.length →
        (snapshot (pushAll s fs)).length = SPEC_WIDTH
        ∧ (snapshot (pushAll s fs))[0]? = fs.getLast?) := by
  refine ⟨length_push hs, by simp [push], ?_, rfl, ?_⟩
  · intro i hi
    exact getElem?_push_succ (by omega)
  · intro fs hfs
    have hne : fs ≠ [] := by
      intro hnil
      rw [hnil] at hfs
      simp [SPEC_WIDTH] at hfs
    exact ⟨length_pushAll fs hs, head?_pushAll hne⟩

/-- Closed witness for C3: a store of 200 frames, one push, and 200
further pushes, all evaluated concretely. -/
theorem C3_rolling_store_rotation_witness :
    (push (List.replicate 200 (0 : ℕ)) 1).length = SPEC_WIDTH
    ∧ (push (List.replicate 200 (0 : ℕ)) 1)[0]? = some 1
    ∧ (push (List.replicate 200 (0 : ℕ)) 1)[3]? = (List.replicate 200 (0 : ℕ))[2]?
    ∧ (snapshot (pushAll (List.replicate 200 (0 : ℕ))
        (List.replicate 200 (5 : ℕ))))[0]? = (List.replicate 200 (5 : ℕ)).getLast? := by
  have h := C3_rolling_store_rotation (List.replicate 200 (0 : ℕ)) 1
    (by rw [List.length_replicate]; rfl)
  have h5 := h.2.2.2.2 (List.replicate 200 (5 : ℕ))
    (by rw [List.length_replicate]; exact Nat.le_refl 200)
  exact ⟨h.1, h.2.1, h.2.2.1 2 (by norm_num [SPEC_WIDTH]), h5.2⟩

/-! ## Concurrency model for the store

Both store accesses in the source run under the same `Mutex`: the worker's
`spec_ref.lock().unwrap()` around `pop`/`insert`, and the renderer's
`spectrogram.lock().unwrap().clone()`. The mutex serializes them, so any
concurrent execution is observationally an interleaving of atomic `push`
and `snapshot` operations; `runTrace` runs one such interleaving and
records what every snapshot observed. -/

/-- One mutex-guarded store operation: a writer `push` or a reader
`snap` (snapshot). -/
inductive StoreOp (F : Type) where
  | push : F → StoreOp F
  | snap : StoreOp F

/-- Run an interleaving of store operations from state `st`; returns the
final state and the list of states the snapshots observed, in order. -/
def runTrace {F : Type} (st : List F) : List (StoreOp F) → List F × List (List F)
  | [] => (st, [])
  | StoreOp.push f :: ops => runTrace (push st f) ops
  | StoreOp.snap :: ops =>
    let rest := runTrace st ops
    (rest.1, snapshot st :: rest.2)

/-- The frames pushed by a trace, in order. -/
def pushesOf {F : Type} (tr : List (StoreOp F)) : List F :=
  tr.filterMap fun op =>
    match op with
    | StoreOp.push f => some f
    | StoreOp.snap => none

lemma runTrace_snapshots {F : Type} (tr : List (StoreOp F)) :
    ∀ st : List F, ∀ s ∈ (runTrace st tr).2,
      ∃ ps rest, ps ++ rest = pushesOf tr ∧ s = pushAll st ps := by
  induction tr with
  | nil => intro st s hs; simp [runTrace] at hs
  | cons op ops ih =>
    intro st s hs
    cases op with
    | push f =>
      obtain ⟨ps, rest, hsplit, hval⟩ := ih (push st f) s hs
      refine ⟨f :: ps, rest, ?_, ?_⟩
      · simp [pushesOf, List.filterMap_cons] at hsplit ⊢
        exact hsplit
      · simpa [pushAll, List.foldl_cons] using hval
    | snap =>
      simp only [runTrace, List.mem_cons] at hs
      rcases hs with rfl | hs
      · exact ⟨[], pushesOf ops, by simp [pushesOf, List.filterMap_cons],
          by simp [pushAll, snapshot]⟩
      · obtain ⟨ps, rest, hsplit, hval⟩ := ih st s hs
        exact ⟨ps, rest, by simpa [pushesOf, List.filterMap_cons] using hsplit,
          hval⟩

/-- **C4.** In any interleaving of mutex-serialized `push` (writer thread)
and `snapshot` (renderer thread) operations starting from a store of
exactly `SPEC_WIDTH` frames, every snapshot observes exactly `SPEC_WIDTH`
frames, and the observed state is exactly `pushAll init ps` for some
prefix `ps` of the pushes of the trace: the complete, newest-first result
of the pushes that happened before it — never a partially-updated state
with a frame duplicated or missing. -/
theorem C4_snapshot_atomicity {F : Type} (init : List F)
    (hinit : init.length = SPEC_WIDTH) (tr : List (StoreOp F)) :
    ∀ s ∈ (runTrace init tr).2,
      s.length = SPEC_WIDTH
      ∧ ∃ ps rest, ps ++ rest = pushesOf tr ∧ s = pushAll init ps := by
  intro s hs
  obtain ⟨ps, rest, hsplit, hval⟩ := runTrace_snapshots tr init s hs
  exact ⟨by rw [hval]; exact length_pushAll ps hinit, ps, rest, hsplit, hval⟩

/-- Closed witness for C4: a 200-frame store, a trace that pushes frame 7
and then snapshots; the snapshot observed by the trace is evaluated
concretely. -/
theorem C4_snapshot_atomicity_witness :
    (push (List.replicate 200 (0 : ℕ)) 7).length = SPEC_WIDTH
    ∧ ∃ ps rest, ps ++ rest = pushesOf [StoreOp.push 7, StoreOp.snap]
        ∧ push (List.replicate 200 (0 : ℕ)) 7 = pushAll (List.replicate 200 (0 : ℕ)) ps := by
  have h := C4_snapshot_atomicity (List.replicate 200 (0 : ℕ))
    (by rw [List.length_replicate]; rfl)
    [StoreOp.push 7, StoreOp.snap]
    (push (List.replicate 200 (0 : ℕ)) 7)
    (by simp [runTrace, snapshot])
  exact h

/-! ## Store-lock failure (`fft_worker.rs` line 28)

Every store update runs `spec_ref.lock().unwrap()`. `lock()` returns
`Err(PoisonError)` once a previous holder panicked while holding the lock;
`.unwrap()` then panics, which ends the worker thread at that point — the
failure propagates instead of being ignored. `workerLoop` models the
sequence of store updates with an `Except`: `p` is the index of the first
update at which the lock is found poisoned, and the `error` result is the
panic, carrying the store as it was left (no further frame processed). -/

/-- The worker's store-update sequence under a lock that is poisoned from
update index `p` on: pushes frames one by one (update counter `k`), and
terminates with `Except.error` — the `.unwrap()` panic — as soon as the
lock acquisition fails. -/
def workerLoop {F : Type} (p : ℕ) : List F → List F → ℕ → Except (List F) (List F)
  | [], st, _ => Except.ok st
  | f :: fs, st, k =>
    if p ≤ k then Except.error st else workerLoop p fs (push st f) (k + 1)

lemma workerLoop_poisoned {F : Type} (p : ℕ) (frames : List F) :
    ∀ (st : List F) (k : ℕ), k ≤ p → p < k + frames.length →
      workerLoop p frames st k
        = Except.error (pushAll st (frames.take (p - k))) := by
  induction frames with
  | nil => intro st k hk hp; simp at hp; omega
  | cons f fs ih =>
    intro st k hk hp
    by_cases hpk : p ≤ k
    · have : p = k := Nat.le_antisymm hpk hk
      simp [workerLoop, hpk, this, pushAll]
    · have hk1 : k + 1 ≤ p := by omega
      have hp1 : p < (k + 1) + fs.length := by
        simp only [List.length_cons] at hp; omega
      have htake : (f :: fs).take (p - k) = f :: fs.take (p - (k + 1)) := by
        have : p - k = (p - (k + 1)) + 1 := by omega
        rw [this, List.take_succ_cons]
      rw [workerLoop, if_neg hpk, ih (push st f) (k + 1) hk1 hp1, htake]
      simp [pushAll, List.foldl_cons]

/-- **C9.** If the store's lock is poisoned at some update within the
worker's run (`k ≤ p < k + frames.length`), the worker terminates at that
update with an error — the `.unwrap()` panic — having applied exactly the
pushes that preceded the poisoning; it never returns a normal result, so
the failure is not silently swallowed and no processing continues on stale
data. -/
theorem C9_poisoned_lock_terminates {F : Type} (p k : ℕ) (st frames : List F)
    (hk : k ≤ p) (hp : p < k + frames.length) :
    workerLoop p frames st k = Except.error (pushAll st (frames.take (p - k)))
    ∧ ∀ r : List F, workerLoop p frames st k ≠ Except.ok r := by
  have h := workerLoop_poisoned p frames st k hk hp
  exact ⟨h, fun r hr => by rw [h] at hr; exact Except.noConfusion hr⟩

/-- Closed witness for C9: lock poisoned at the second update (`p = 1`),
three frames pending; the worker errors out after exactly one push. -/
theorem C9_poisoned_lock_terminates_witness :
    workerLoop 1 [1, 2, 3] (List.replicate 200 (0 : ℕ)) 0
      = Except.error (pushAll (List.replicate 200 (0 : ℕ)) ([1, 2, 3].take 1))
    ∧ ∀ r : List ℕ, workerLoop 1 [1, 2, 3] (List.replicate 200 (0 : ℕ)) 0
        ≠ Except.ok r := by
  have h := C9_poisoned_lock_terminates 1 0 (List.replicate 200 (0 : ℕ))
    [1, 2, 3] (by decide) (by decide)
  exact h

/-! ## TUI column selection (`ui.rs` line 68)

The draw loop iterates `for column in spec.iter().rev().take(width)`:
it first reverses the snapshot (which is ordered newest-first) and then
takes the first `width` elements — i.e. the `width` *oldest* frames,
oldest first. -/

/-- The columns the TUI draw loop visits, left to right:
`spec.iter().rev().take(width)`. -/
def displayedColumns {F : Type} (spec : List F) (width : ℕ) : List F :=
  spec.reverse.take width

/-- A concrete 200-frame snapshot whose frames are pairwise distinct:
frame `[i]` sits at index `i`, so `[0]` is the most recent frame and
`[199]` the oldest. -/
def distinctSnapshot : List (List ℕ) :=
  (List.range 200).map fun i => [i]

set_option maxRecDepth 4000 in
/-- **C7 (evaluation at the failing input).** On a snapshot of
`SPEC_WIDTH = 200` pairwise-distinct frames, with terminal width 1, the
single column the TUI draws is the *oldest* frame `[199]`, not the most
recent frame `[0]` sitting at snapshot index 0 — the renderer truncates
away the newest frames, contradicting "the viewer always sees the most
recent frames". -/
theorem C7_tui_draws_oldest_columns :
    displayedColumns distinctSnapshot 1 = [[199]]
    ∧ distinctSnapshot[0]? = some [0]
    ∧ ([[199]] : List (List ℕ)) ≠ [[0]] := by
  refine ⟨by decide, by decide, by decide⟩

/-! ## Spectral Transform Engine (`fft_worker.rs` lines 17–26)

The code maps the window to complex values with zero imaginary part,
runs `fft.process` (rustfft's forward transform,
`X_k = Σ_n x_n · e^(-2πi·k·n/N)`, unnormalized), slices the first
`FFT_SIZE/2` outputs and maps each through
`(c.norm() / FFT_SIZE).log10().max(-2.0) + 2.0`.

`f32` arithmetic is modelled by exact real arithmetic. The one point
where IEEE semantics is observably different, `(0.0).log10() = -inf`
followed by `.max(-2.0) = -2.0`, is modelled by the explicit zero case of
`clampedLog10`. -/

/-- `m.log10().max(-2.0)` for the nonnegative `m` produced by
`c.norm() / FFT_SIZE`: IEEE `log10(0)` is `-inf`, which `.max(-2.0)`
maps to `-2.0`; for `m > 0` it is the real `log₁₀ m` clamped below at
`-2`. -/
noncomputable def clampedLog10 (m : ℝ) : ℝ :=
  if m = 0 then -2 else max (Real.logb 10 m) (-2)

/-- Output `k` of the forward discrete Fourier transform that
`fft.process` computes on a complex buffer `x` of length `N = x.length`:
`X_k = Σ_{n<N} x_n · e^(-2πi·k·n/N)` (rustfft's unnormalized forward
convention). -/
noncomputable def dftOut (x : List ℂ) (k : ℕ) : ℂ :=
  ∑ n ∈ Finset.range x.length,
    x.getD n 0 * Complex.exp (-(2 * Real.pi * Complex.I) * k * n / x.length)

/-- The Spectral Transform Engine: complexify the window
(`Complex { re: x, im: 0.0 }`, no windowing function), transform, keep
the first `FFT_SIZE/2` outputs (`input[..FFT_SIZE/2]`), and map each
through `(c.norm() / FFT_SIZE).log10().max(-2.0) + 2.0`. (The code
computes the full transform in place and then slices; computing only the
first `FFT_SIZE/2` outputs yields the same values.) -/
noncomputable def spectralFrame (window : List ℝ) : List ℝ :=
  let input : List ℂ := window.map Complex.ofReal
  (List.range (FFT_SIZE / 2)).map fun k =>
    clampedLog10 (Complex.abs (dftOut input k) / FFT_SIZE) + 2

/-- **C2.** For every analysis window of exactly `FFT_SIZE` samples the
transform yields a spectral frame of exactly `FFT_SIZE/2 = 256` values;
value `i` is `max(log10(|X_i|/FFT_SIZE), -2) + 2` where `X_i` is the
`i`-th forward-DFT output of the window taken as complex numbers with
zero imaginary part (rectangular window, first half only) — with the
IEEE reading `log10(0) = -inf`, so a zero magnitude clamps to the `-2`
floor. -/
theorem C2_spectral_transform (window : List ℝ)
    (_hw : window.length = FFT_SIZE) :
    (spectralFrame window).length = FFT_SIZE / 2
    ∧ (∀ i : ℕ, i < FFT_SIZE / 2 →
        (spectralFrame window)[i]? = some
          (clampedLog10
            (Complex.abs (dftOut (window.map Complex.ofReal) i) / FFT_SIZE)
            + 2))
    ∧ (∀ i : ℕ, i < FFT_SIZE / 2 →
        Complex.abs (dftOut (window.map Complex.ofReal) i) / FFT_SIZE ≠ 0 →
        (spectralFrame window)[i]? = some
          (max (Real.logb 10
              (Complex.abs (dftOut (window.map Complex.ofReal) i) / FFT_SIZE))
            (-2) + 2)) := by
  refine ⟨by simp [spectralFrame], ?_, ?_⟩
  · intro i hi
    simp [spectralFrame, List.getElem?_map, List.getElem?_range, hi]
  · intro i hi hm
    have hg : (spectralFrame window)[i]? = some
        (clampedLog10
          (Complex.abs (dftOut (window.map Complex.ofReal) i) / FFT_SIZE)
          + 2) := by
      simp [spectralFrame, List.getElem?_map, List.getElem?_range, hi]
    rw [hg, clampedLog10, if_neg hm]

lemma dftOut_zero_window (k : ℕ) :
    dftOut ((List.replicate FFT_SIZE (0 : ℝ)).map Complex.ofReal) k = 0 := by
  unfold dftOut
  rw [List.map_replicate, Complex.ofReal_zero]
  refine Finset.sum_eq_zero fun n _ => ?_
  have h : (List.replicate FFT_SIZE (0 : ℂ)).getD n 0 = 0 := by
    rw [List.getD, List.get?_eq_getElem?, List.getElem?_replicate]
    split <;> rfl
  rw [h, zero_mul]

/-- **C5.** The all-zero analysis window produces the spectral frame in
which every one of the `FFT_SIZE/2 = 256` values is exactly `0`: every
DFT output is `0`, its magnitude `0` clamps to the `-2` floor
(`log10(0) = -inf`, `.max(-2.0) = -2.0`), and adding `2` gives exactly
`0`. -/
theorem C5_silence_floor :
    spectralFrame (List.replicate FFT_SIZE (0 : ℝ))
      = List.replicate (FFT_SIZE / 2) 0 := by
  unfold spectralFrame
  have h : ∀ k ∈ List.range (FFT_SIZE / 2),
      clampedLog10
          (Complex.abs (dftOut
            ((List.replicate FFT_SIZE (0 : ℝ)).map Complex.ofReal) k)
            / FFT_SIZE) + 2 = 0 := by
    intro k _
    rw [dftOut_zero_window]
    simp [clampedLog10]
  rw [List.map_congr_left h]
  simp [List.map_const']

/-- Closed witness for C2: the transform applied to the all-zero window
of length `FFT_SIZE`, its length and its bin 0 evaluated. -/
theorem C2_spectral_transform_witness :
    (spectralFrame (List.replicate FFT_SIZE (0 : ℝ))).length = FFT_SIZE / 2
    ∧ (spectralFrame (List.replicate FFT_SIZE (0 : ℝ)))[0]? = some
        (clampedLog10
          (Complex.abs (dftOut
            ((List.replicate FFT_SIZE (0 : ℝ)).map Complex.ofReal) 0)
            / FFT_SIZE) + 2) := by
  have h := C2_spectral_transform (List.replicate FFT_SIZE (0 : ℝ))
    (by rw [List.length_replicate])
  exact ⟨h.1, h.2.1 0 (by decide)⟩

/-! ## Renderer frequency mapping (`ui.rs` lines 57–80, `ui/gui.rs` lines 41–49)

Both renderers compute, for a display row `row` of `height` rows,
`frac = 1 - row/height`, `freq = 10^(log_min + frac*(log_max - log_min))`
with `log_min = log10(20)`, `log_max = log10(sample_rate/2)`, then
`fft_index = ((freq / f_max) * (FFT_SIZE/2)).round() as usize`, and render
the cell only when `fft_index < column.len()`, blank otherwise. `f32`
arithmetic is modelled by `ℝ`; `round` is round-half-away-from-zero,
which on the nonnegative values produced here coincides with Mathlib's
round-half-up; `as usize` on a nonnegative float truncates (and saturates
below at 0), modelled by `Int.toNat`. -/

/-- `ui.rs`: the frequency displayed on row `row` of `height` rows. -/
noncomputable def uiRowFreq (sample_rate : ℝ) (height row : ℕ) : ℝ :=
  let log_min := Real.logb 10 20
  let log_max := Real.logb 10 (sample_rate / 2)
  let frac : ℝ := 1 - (row : ℝ) / (height : ℝ)
  (10 : ℝ) ^ (log_min + frac * (log_max - log_min))

/-- `ui.rs` line 69:
`((freq / f_max) * (FFT_SIZE as f32 / 2.0)).round() as usize`. -/
noncomputable def uiFftIndex (sample_rate : ℝ) (height row : ℕ) : ℕ :=
  (round (uiRowFreq sample_rate height row / (sample_rate / 2)
    * ((FFT_SIZE : ℝ) / 2))).toNat

/-- `ui.rs` lines 70–80: the cell drawn for one row of one column —
the column's value at `fft_index` when that is in range, blank (`none`)
otherwise. -/
noncomputable def uiCell (sample_rate : ℝ) (height row : ℕ)
    (column : List ℝ) : Option ℝ :=
  if h : uiFftIndex sample_rate height row < column.length then
    some (column.get ⟨uiFftIndex sample_rate height row, h⟩)
  else none

/-- `ui/gui.rs` line 42–43: the same frequency formula, for pixel row `y`
of `height` pixel rows. -/
noncomputable def guiRowFreq (sample_rate : ℝ) (height y : ℕ) : ℝ :=
  let log_min := Real.logb 10 20
  let log_max := Real.logb 10 (sample_rate / 2)
  let frac : ℝ := 1 - (y : ℝ) / (height : ℝ)
  (10 : ℝ) ^ (log_min + frac * (log_max - log_min))

/-- `ui/gui.rs` line 44:
`((freq / f_max) * (FFT_SIZE as f32 / 2.0)).round() as usize`. -/
noncomputable def guiFftIndex (sample_rate : ℝ) (height y : ℕ) : ℕ :=
  (round (guiRowFreq sample_rate height y / (sample_rate / 2)
    * ((FFT_SIZE : ℝ) / 2))).toNat

/-- Modelled from the spec (§4.4), for comparison with the code-side
definitions: `freq(r) = 10^(log10(f_min) + (1 - r/H) * (log10(f_max) -
log10(f_min)))` with `f_min = 20`, `f_max = sample_rate/2`. -/
noncomputable def specRowFreq (sample_rate : ℝ) (H r : ℕ) : ℝ :=
  (10 : ℝ) ^ (Real.logb 10 20
    + (1 - (r : ℝ) / (H : ℝ)) * (Real.logb 10 (sample_rate / 2) - Real.logb 10 20))

/-- Modelled from the spec (§4.4), for comparison with the code-side
definitions: `idx = round((freq / f_max) * (FFT_SIZE/2))`. -/
noncomputable def specFrameIndex (sample_rate : ℝ) (H r : ℕ) : ℕ :=
  (round (specRowFreq sample_rate H r / (sample_rate / 2)
    * ((FFT_SIZE : ℝ) / 2))).toNat

/-- **C6.** For every row count `H > 0` and row `r < H`, both renderers
compute exactly the spec's logarithmic row frequency and spectral-frame
index, and the TUI renders a cell exactly when the index is within the
frame, blank otherwise. The mapping is deterministic: it is a function of
`(sample_rate, H, r)` alone, so the TUI and GUI embeddings agreeing with
the single spec formula means the same inputs always give the same
index. -/
theorem C6_frequency_axis_mapping (sample_rate : ℝ) (H r : ℕ)
    (_hH : 0 < H) (_hr : r < H) :
    uiRowFreq sample_rate H r = specRowFreq sample_rate H r
    ∧ guiRowFreq sample_rate H r = specRowFreq sample_rate H r
    ∧ uiFftIndex sample_rate H r = specFrameIndex sample_rate H r
    ∧ guiFftIndex sample_rate H r = specFrameIndex sample_rate H r
    ∧ (∀ column : List ℝ,
        ¬ uiFftIndex sample_rate H r < column.length →
          uiCell sample_rate H r column = none)
    ∧ (∀ (column : List ℝ) (h : uiFftIndex sample_rate H r < column.length),
        uiCell sample_rate H r column
          = some (column.get ⟨uiFftIndex sample_rate H r, h⟩)) := by
  refine ⟨rfl, rfl, rfl, rfl, ?_, ?_⟩
  · intro column h
    rw [uiCell, dif_neg h]
  · intro column h
    rw [uiCell, dif_pos h]

/-- Closed witness for C6: the mapping evaluated at `sample_rate = 48000`,
`H = 10`, `r = 3`, and the blank case at the empty column. -/
theorem C6_frequency_axis_mapping_witness :
    uiRowFreq 48000 10 3 = specRowFreq 48000 10 3
    ∧ guiRowFreq 48000 10 3 = specRowFreq 48000 10 3
    ∧ uiFftIndex 48000 10 3 = specFrameIndex 48000 10 3
    ∧ guiFftIndex 48000 10 3 = specFrameIndex 48000 10 3
    ∧ uiCell 48000 10 3 [] = none := by
  have h := C6_frequency_axis_mapping 48000 10 3 (by decide) (by decide)
  exact ⟨h.1, h.2.1, h.2.2.1, h.2.2.2.1,
    h.2.2.2.2.1 [] (by simp)⟩

/-! ## GUI update safety (`ui/gui.rs` lines 26–28, `main.rs` startup)

`SpectrogramApp::update` clones the snapshot, reads
`width = spec.len()` and `height = spec[0].len()` — the latter indexes
the snapshot unconditionally, panicking when it is empty — and then
builds the `width × height` image; every later access is either
bounds-guarded (`fft_index < spec[rev_x].len()`) or within
`rev_x = width - 1 - x < width`. The `Option` result models the
indexing panic. -/

/-- Sequentially evaluate a fallible computation on every element, in
order, failing as soon as one fails — the shape of a Rust loop whose
body can panic. -/
def optionMapAll {α β : Type} (f : α → Option β) : List α → Option (List β)
  | [] => some []
  | a :: rest =>
    match f a with
    | none => none
    | some b =>
      match optionMapAll f rest with
      | none => none
      | some bs => some (b :: bs)

/-- `SpectrogramApp::update`'s image construction: `none` models the
panic of the unguarded `spec[0]` (or of `spec[rev_x]`, were it ever out
of bounds); otherwise the pixel intensities of the image, column by
column (`rev_x = width - 1 - x`, values clamped to `[0, 2]` and scaled
by `/ 2.0 * 255.0`). -/
noncomputable def guiUpdate (sample_rate : ℝ) (spec : List (List ℝ)) :
    Option (List ℝ) :=
  match spec[0]? with
  | none => none
  | some c0 =>
    let width := spec.length
    let height := c0.length
    match optionMapAll (fun x =>
        (spec[width - 1 - x]?).map fun column =>
          (List.range height).map fun y =>
            let idx := guiFftIndex sample_rate height y
            let val := if h : idx < column.length then
                min (max (column.get ⟨idx, h⟩) 0) 2
              else 0
            val / 2 * 255) (List.range width) with
    | none => none
    | some columns => some columns.flatten

/-- `main.rs` line 64: the store is pre-filled at startup with
`SPEC_WIDTH` zero-valued frames of `FFT_SIZE/2` bins
(`vec![vec![0.0; FFT_SIZE / 2]; SPEC_WIDTH]`). -/
def initHistory : List (List ℝ) :=
  List.replicate SPEC_WIDTH (List.replicate (FFT_SIZE / 2) 0)

lemma optionMapAll_isSome {α β : Type} (f : α → Option β) (l : List α)
    (h : ∀ a ∈ l, (f a).isSome) : (optionMapAll f l).isSome := by
  induction l with
  | nil => rfl
  | cons a rest ih =>
    obtain ⟨b, hb⟩ := Option.isSome_iff_exists.mp (h a (List.mem_cons_self a rest))
    obtain ⟨bs, hbs⟩ := Option.isSome_iff_exists.mp
      (ih fun v hv => h v (List.mem_cons_of_mem a hv))
    simp [optionMapAll, hb, hbs]

/-- **C10.** The GUI update requires a non-empty snapshot: for every
snapshot of length ≥ 1 it completes (no out-of-bounds access — the only
unguarded indexing, `spec[0]`, succeeds, and every `spec[rev_x]` is in
range), on the empty snapshot the `spec[0]` indexing fails, and the
startup pre-fill of `SPEC_WIDTH` zero frames satisfies the
precondition. -/
theorem C10_gui_update_nonempty_snapshot (sample_rate : ℝ)
    (spec : List (List ℝ)) (h : 1 ≤ spec.length) :
    (guiUpdate sample_rate spec).isSome
    ∧ guiUpdate sample_rate [] = none
    ∧ 1 ≤ initHistory.length := by
  refine ⟨?_, rfl, by rw [initHistory, List.length_replicate]; decide⟩
  cases spec with
  | nil => simp at h
  | cons c0 rest =>
    have h0 : (c0 :: rest)[0]? = some c0 := by
      rw [List.getElem?_eq_getElem (by simp)]
      rfl
    rw [guiUpdate, h0]
    dsimp only
    have harg : ∀ x ∈ List.range (c0 :: rest).length,
        (((c0 :: rest)[(c0 :: rest).length - 1 - x]?).map fun column =>
          (List.range c0.length).map fun y =>
            let idx := guiFftIndex sample_rate c0.length y
            let val := if hlt : idx < column.length then
                min (max (column.get ⟨idx, hlt⟩) 0) 2
              else 0
            val / 2 * 255).isSome := by
      intro x hx
      rw [List.mem_range] at hx
      rw [Option.isSome_map']
      rw [List.getElem?_eq_getElem (by simp only [List.length_cons] at hx ⊢; omega)]
      rfl
    split
    next heq =>
      exfalso
      have hs := optionMapAll_isSome _ _ harg
      rw [heq] at hs
      exact Bool.noConfusion hs
    next cols heq => rfl

/-- Closed witness for C10: the GUI update applied to the startup
pre-fill. -/
theorem C10_gui_update_nonempty_snapshot_witness :
    (guiUpdate 48000 initHistory).isSome
    ∧ guiUpdate 48000 [] = none
    ∧ 1 ≤ initHistory.length := by
  exact C10_gui_update_nonempty_snapshot 48000 initHistory
    (by rw [initHistory, List.length_replicate]; decide)

end RealtimeSpectrogram
